import Mathlib

/-!
Verification of `autotranscode.py`: a shallow embedding of its pure logic.

Python strings are modelled as `List Char` (`Str`); the filesystem, as seen
by `os.path.exists`, is a finite list of existing paths; results of external
effects (subprocess runs, copies, `os.path.getsize`) are explicit values fed
to the embedded functions.
-/

namespace AutoTranscode

/-- Python strings, modelled as lists of characters. -/
abbrev Str := List Char

/-! ### Decimal rendering of naturals (Python `str(index)` inside the f-string) -/

/-- Big-endian decimal digits of `n`, with `fuel` bounding the recursion depth
(`fuel ≥ n` is always enough since `n / 10 < n` for `n > 0`). -/
def toDigitsAux : Nat → Nat → List Char
  | 0, _ => []
  | _ + 1, 0 => []
  | fuel + 1, n + 1 => toDigitsAux fuel ((n + 1) / 10) ++ [Nat.digitChar ((n + 1) % 10)]

/-- Decimal representation of a natural number, as Python `str` produces it. -/
def decimalRepr (n : Nat) : Str :=
  if n = 0 then ['0'] else toDigitsAux n n

/-- Numeric value of a decimal digit character (proof-side inverse used to
show `decimalRepr` is injective). -/
def digitVal (c : Char) : Nat :=
  c.toNat - '0'.toNat

/-- Numeric value of a big-endian digit string. -/
def digitsVal (l : List Char) : Nat :=
  l.foldl (fun a c => 10 * a + digitVal c) 0

/-! ### Filesystem and the output namer (`get_unique_output_path`) -/

/-- Model of `os.path.exists`, over the finite list of paths that exist at call time. -/
def pathExists (fs : List Str) (p : Str) : Bool :=
  decide (p ∈ fs)

/-- The candidate path `f"{name}_{index}{ext}"` probed by the collision loop. -/
def candidate (name ext : Str) (index : Nat) : Str :=
  name ++ '_' :: decimalRepr index ++ ext

/-- Index of the last occurrence of `c` in `s` (Python `str.rfind`, as an
`Option`: `none` plays the role of `-1`). -/
def lastIdxOf : Str → Char → Option Nat
  | [], _ => none
  | a :: s, c =>
    match lastIdxOf s c with
    | some i => some (i + 1)
    | none => if a = c then some 0 else none

/-- Model of `os.path.splitext` (POSIX): split at the last `.` that comes after the last
`/` and after any run of leading dots of the basename; `root ++ ext = p`. -/
def splitext (p : Str) : Str × Str :=
  let sepIndex := lastIdxOf p '/'
  match lastIdxOf p '.' with
  | none => (p, [])
  | some dotIndex =>
    let start := match sepIndex with | none => 0 | some s => s + 1
    let sepOk : Bool := match sepIndex with | none => true | some s => decide (s < dotIndex)
    if sepOk && ((p.drop start).take (dotIndex - start)).any (fun c => c ≠ '.')
    then (p.take dotIndex, p.drop dotIndex)
    else (p, [])

/-- The probing loop `while os.path.exists(f"{name}_{index}{ext}"): index += 1`,
with explicit fuel; the callers supply fuel `|fs| + 1`, which is proved
sufficient below (`firstFreeAux_spec`, `exists_free_candidate`). -/
def firstFreeAux (fs : List Str) (name ext : Str) : Nat → Nat → Nat
  | 0, index => index
  | fuel + 1, index =>
    if pathExists fs (candidate name ext index) then
      firstFreeAux fs name ext fuel (index + 1)
    else index

/-- The first index `≥ 1` whose candidate name does not exist. -/
def firstFreeIndex (fs : List Str) (name ext : Str) : Nat :=
  firstFreeAux fs name ext (fs.length + 1) 1

/-- The namer `get_unique_output_path`: return `output_file` if it does not exist,
otherwise append `_1`, `_2`, … before the extension until a free name is found. -/
def get_unique_output_path (fs : List Str) (output_file : Str) : Str :=
  if pathExists fs output_file then
    let ne := splitext output_file
    candidate ne.1 ne.2 (firstFreeIndex fs ne.1 ne.2)
  else output_file

/-! ### File discovery (`find_audio_files`, `is_file_too_small`, `delete_small_file`) -/

/-- One regular file met by `os.walk`: the directory it is in, its bare name,
and the result of `os.path.getsize` on it (`none` when the size check raises). -/
structure FSFile where
  root : Str
  name : Str
  size : Option Nat
  deriving DecidableEq

/-- Model of `os.path.join(root, file)` on POSIX (root without trailing separator). -/
def fullPath (f : FSFile) : Str :=
  f.root ++ '/' :: f.name

/-- Python `str.lower`, characterwise. -/
def lowerStr (s : Str) : Str :=
  s.map Char.toLower

/-- Python `str.endswith` for a single suffix. -/
def endswith (s suffix : Str) : Bool :=
  suffix.isSuffixOf s

/-- The `.flac` extension, lowercased form. -/
def flacExt : Str := ['.', 'f', 'l', 'a', 'c']

/-- The `.mp3` extension, lowercased form. -/
def mp3Ext : Str := ['.', 'm', 'p', '3']

/-- The `'flac'` type tag stored in the result tuples. -/
def flacTag : Str := ['f', 'l', 'a', 'c']

/-- The `'mp3'` type tag stored in the result tuples. -/
def mp3Tag : Str := ['m', 'p', '3']

/-- The check `is_file_too_small`: `os.path.getsize(p) / 1024 < min_size_kb`, and `False`
when reading the size raises.  (Division by the power of two 1024 is exact, so
the float comparison coincides with `bytes < min_size_kb * 1024`.) -/
def is_file_too_small (size : Option Nat) (min_size_kb : Nat) : Bool :=
  match size with
  | some bytes => decide (bytes < min_size_kb * 1024)
  | none => false

/-- Everything `find_audio_files` produces: the returned list of
`(full_path, file_type)` tuples, the count of small files, and the paths on
which `delete_small_file` was invoked (its only filesystem writes). -/
structure DiscoveryOut where
  audio_files : List (Str × Str)
  small_files_count : Nat
  deletions : List Str
  deriving DecidableEq

/-- The body of `find_audio_files`, one `os.walk` file at a time. -/
def discovery (files : List FSFile) (min_size_kb : Nat) (delete_small : Bool) :
    DiscoveryOut :=
  match files with
  | [] => ⟨[], 0, []⟩
  | f :: rest =>
    let r := discovery rest min_size_kb delete_small
    let file_lower := lowerStr f.name
    if endswith file_lower flacExt || endswith file_lower mp3Ext then
      if is_file_too_small f.size min_size_kb then
        ⟨r.audio_files, r.small_files_count + 1,
          (if delete_small then [fullPath f] else []) ++ r.deletions⟩
      else
        ⟨(fullPath f, if endswith file_lower flacExt then flacTag else mp3Tag)
            :: r.audio_files,
          r.small_files_count, r.deletions⟩
    else r

/-- The function `find_audio_files` as called from `main`: the returned list. -/
def find_audio_files (files : List FSFile) (min_size_kb : Nat)
    (delete_small : Bool) : List (Str × Str) :=
  (discovery files min_size_kb delete_small).audio_files

/-! ### Converters (`copy_file`, `transcode_file`) -/

/-- What happened inside the `try` block of `transcode_file`: either
`subprocess.run` returned (with a return code and captured stderr), or some
step raised an exception with the given text. -/
inductive TranscodeOutcome where
  | completedProc (returncode : Int) (stderr : Str)
  | raised (msg : Str)
  deriving DecidableEq

/-- What happened inside the `try` block of `copy_file`: either `shutil.copy2`
finished, or some step raised an exception with the given text. -/
inductive CopyOutcome where
  | ok
  | raised (msg : Str)
  deriving DecidableEq

/-- A converter's observable result: the returned boolean and the error text
printed on failure (captured stderr or exception message), if any. -/
structure ConvResult where
  ok : Bool
  logged : Option Str
  deriving DecidableEq

/-- The converter `transcode_file`: `True` on return code 0; on a nonzero return code,
`False` with the captured stderr logged; on any exception, `False` with the
exception text logged. -/
def transcode_file (outcome : TranscodeOutcome) : ConvResult :=
  match outcome with
  | .completedProc returncode stderr =>
    if returncode = 0 then ⟨true, none⟩ else ⟨false, some stderr⟩
  | .raised msg => ⟨false, some msg⟩

/-- The converter `copy_file`: `True` when the copy completes, `False` with the exception
text logged on any exception. -/
def copy_file (outcome : CopyOutcome) : ConvResult :=
  match outcome with
  | .ok => ⟨true, none⟩
  | .raised msg => ⟨false, some msg⟩

/-! ### Dispatcher counters and progress bar -/

/-- One `as_completed` iteration: a `True` result increments `completed`, a
`False` result increments `failed`. -/
def countStep (p : Nat × Nat) (r : Bool) : Nat × Nat :=
  if r then (p.1 + 1, p.2) else (p.1, p.2 + 1)

/-- The `(completed, failed)` counters after consuming the given results. -/
def run_counters (results : List Bool) : Nat × Nat :=
  results.foldl countStep (0, 0)

/-- The counters after the first `k` completions of the run. -/
def counters_after (results : List Bool) (k : Nat) : Nat × Nat :=
  run_counters (results.take k)

/-! #### Exact model of IEEE-754 binary64 arithmetic

`display_progress` computes `(completed + failed) / total` and
`width * percentage` in Python floats.  The model below represents each
(nonnegative, finite) double by its exact rational value and implements
correct rounding to nearest, ties to even, on a 53-bit significand with an
unbounded exponent — faithful to binary64 throughout its normal range, which
the program's values (quotients in `[0, 1]`, products in `[0, 50]`) never
leave. -/

/-- Floor of the base-2 logarithm, with explicit fuel (`fuel ≥ n` suffices). -/
def log2fuel : Nat → Nat → Nat
  | 0, _ => 0
  | fuel + 1, n => if n ≥ 2 then log2fuel fuel (n / 2) + 1 else 0

/-- Floor of the base-2 logarithm of a positive natural. -/
def nlog2 (n : Nat) : Nat := log2fuel n n

/-- Nearest integer to `u / v`, ties to even (the IEEE rounding of a
significand). -/
def roundRatHalfEven (u v : Nat) : Nat :=
  let n0 := u / v
  let r := u % v
  if 2 * r < v then n0
  else if 2 * r > v then n0 + 1
  else if n0 % 2 = 0 then n0 else n0 + 1

/-- Floor of the base-2 logarithm of the positive rational `a / b`. -/
def flog2 (a b : Nat) : Int :=
  let la := nlog2 a
  let lb := nlog2 b
  if a * 2 ^ lb ≥ b * 2 ^ la then (la : Int) - lb else (la : Int) - lb - 1

/-- The binary64 double nearest to `a / b` (ties to even), as its exact
rational value; 0 when `a = 0` (and, vacuously, when `b = 0`, a division the
program never performs).  This is the value CPython produces for `a / b` on
nonnegative integers, which is correctly rounded. -/
def doubleOfRat (a b : Nat) : ℚ :=
  if a = 0 ∨ b = 0 then 0
  else
    let t : Int := 52 - flog2 a b
    if 0 ≤ t then mkRat (roundRatHalfEven (a * 2 ^ t.toNat) b) (2 ^ t.toNat)
    else mkRat (roundRatHalfEven a (b * 2 ^ (-t).toNat) * 2 ^ (-t).toNat) 1

/-- The binary64 product `n * p` of an exactly representable integer `n`
(here 50) and a nonnegative double with exact value `p`: the exact product is
`(n * p.num) / p.den`, rounded back to a double. -/
def doubleMulNat (n : Nat) (p : ℚ) : ℚ :=
  doubleOfRat (n * p.num.toNat) p.den

/-- What one `display_progress` call writes: the bar characters and the
numeric values interpolated after it (fraction done, raw counts). -/
structure ProgressRender where
  bar : Str
  percentage : ℚ
  done : Nat
  total : Nat
  completed : Nat
  failed : Nat
  deriving DecidableEq

/-- The reporter `display_progress`: a width-50 bar with `int(width * percentage)`
filled cells, where `percentage = (completed + failed) / total` is computed in
binary64 floating point (`0` when `total = 0`, an integer computation in the
source) and `int(...)` truncates the nonnegative double toward zero, i.e.
takes its floor. -/
def display_progress (completed failed total : Nat) : ProgressRender :=
  let width : Nat := 50
  let percentage : ℚ :=
    if total > 0 then doubleOfRat (completed + failed) total else 0
  let filled_width : Nat := (doubleMulNat width percentage).floor.toNat
  { bar := List.replicate filled_width '█' ++ List.replicate (width - filled_width) '-'
    percentage := percentage
    done := completed + failed
    total := total
    completed := completed
    failed := failed }

/-! ### `main` -/

/-- The observable outcome of a `main` run: the process exit code, whether the
"no valid audio files" message was printed, and the final counters. -/
structure MainOutcome where
  exit_code : Nat
  no_files_message : Bool
  completed : Nat
  failed : Nat
  deriving DecidableEq

/-- The driver `main`, with per-task results supplied by `exec` (the boolean
`process_file` returns for a task): zero discovered files prints the message
and exits via `sys.exit(0)`; otherwise every task is processed, the counters
are accumulated, and `main` falls off the end (process exit code 0). -/
def main_model (files : List FSFile) (min_size_kb : Nat) (delete_small : Bool)
    (exec : Str × Str → Bool) : MainOutcome :=
  let audio_files := find_audio_files files min_size_kb delete_small
  if audio_files.length = 0 then
    { exit_code := 0, no_files_message := true, completed := 0, failed := 0 }
  else
    let results := audio_files.map exec
    { exit_code := 0
      no_files_message := false
      completed := (run_counters results).1
      failed := (run_counters results).2 }

/-! ## Lemmas about decimal rendering and the collision-probing loop -/

theorem digitVal_digitChar : ∀ d, d < 10 → digitVal (Nat.digitChar d) = d := by
  decide

theorem digitsVal_append_singleton (l : List Char) (c : Char) :
    digitsVal (l ++ [c]) = 10 * digitsVal l + digitVal c := by
  simp [digitsVal]

theorem digitsVal_toDigitsAux : ∀ fuel n, n ≤ fuel → digitsVal (toDigitsAux fuel n) = n := by
  intro fuel
  induction fuel with
  | zero =>
    intro n hn
    interval_cases n
    simp [toDigitsAux, digitsVal]
  | succ fuel ih =>
    intro n hn
    match n with
    | 0 => simp [toDigitsAux, digitsVal]
    | m + 1 =>
      have hdiv : (m + 1) / 10 ≤ fuel := by
        have := Nat.div_lt_self (Nat.succ_pos m) (by norm_num : 1 < 10)
        omega
      rw [toDigitsAux, digitsVal_append_singleton, ih _ hdiv,
        digitVal_digitChar _ (Nat.mod_lt _ (by norm_num))]
      exact Nat.div_add_mod (m + 1) 10

theorem decimalRepr_injOn_pos {m n : Nat} (hm : 0 < m) (hn : 0 < n)
    (h : decimalRepr m = decimalRepr n) : m = n := by
  unfold decimalRepr at h
  rw [if_neg (Nat.pos_iff_ne_zero.mp hm), if_neg (Nat.pos_iff_ne_zero.mp hn)] at h
  have := congrArg digitsVal h
  rwa [digitsVal_toDigitsAux m m le_rfl, digitsVal_toDigitsAux n n le_rfl] at this

theorem decimalRepr_length_pos (n : Nat) : 0 < (decimalRepr n).length := by
  unfold decimalRepr
  split
  · simp
  · next hne =>
    match n, hne with
    | m + 1, _ => rw [toDigitsAux]; simp

theorem candidate_inj {name ext : Str} {i j : Nat} (hi : 0 < i) (hj : 0 < j)
    (h : candidate name ext i = candidate name ext j) : i = j := by
  unfold candidate at h
  simp only [List.append_assoc, List.cons_append] at h
  have h1 := List.append_cancel_left h
  have h2 : decimalRepr i ++ ext = decimalRepr j ++ ext := by
    injection h1
  exact decimalRepr_injOn_pos hi hj (List.append_cancel_right h2)

theorem candidate_length (name ext : Str) (i : Nat) :
    (candidate name ext i).length =
      name.length + 1 + (decimalRepr i).length + ext.length := by
  simp [candidate]
  omega

theorem candidate_ne_base (name ext : Str) (i : Nat) :
    candidate name ext i ≠ name ++ ext := by
  intro h
  have hl := congrArg List.length h
  rw [candidate_length] at hl
  simp [List.length_append] at hl
  have := decimalRepr_length_pos i
  omega

/-- Pigeonhole: among the `|fs| + 1` distinct candidates with indices
`1 … |fs| + 1`, at least one is not an existing path. -/
theorem exists_free_candidate (fs : List Str) (name ext : Str) :
    ∃ k, k < fs.length + 1 ∧ candidate name ext (k + 1) ∉ fs := by
  by_contra hall
  push_neg at hall
  have hmap : ∀ k ∈ Finset.range (fs.length + 1),
      candidate name ext (k + 1) ∈ fs.toFinset := by
    intro k hk
    rw [List.mem_toFinset]
    exact hall k (Finset.mem_range.mp hk)
  have hinj : Set.InjOn (fun k => candidate name ext (k + 1))
      (Finset.range (fs.length + 1)) := by
    intro a _ b _ hab
    have := candidate_inj (Nat.succ_pos a) (Nat.succ_pos b) hab
    omega
  have hcard := Finset.card_le_card_of_injOn _ hmap hinj
  rw [Finset.card_range] at hcard
  have := fs.toFinset_card_le
  omega

theorem pathExists_iff {fs : List Str} {p : Str} : pathExists fs p = true ↔ p ∈ fs := by
  simp [pathExists]

/-- Correctness of the probing loop: if some index in the fuel window is free,
the loop stops at the least free index at or after its start. -/
theorem firstFreeAux_spec (fs : List Str) (name ext : Str) :
    ∀ fuel i, (∃ k, k < fuel ∧ candidate name ext (i + k) ∉ fs) →
      candidate name ext (firstFreeAux fs name ext fuel i) ∉ fs ∧
      i ≤ firstFreeAux fs name ext fuel i ∧
      ∀ j, i ≤ j → j < firstFreeAux fs name ext fuel i → candidate name ext j ∈ fs := by
  intro fuel
  induction fuel with
  | zero =>
    rintro i ⟨k, hk, -⟩
    exact absurd hk (Nat.not_lt_zero k)
  | succ fuel ih =>
    rintro i ⟨k, hk, hfree⟩
    by_cases hex : pathExists fs (candidate name ext i) = true
    · have hik : k ≠ 0 := by
        intro h0
        rw [h0, Nat.add_zero] at hfree
        exact hfree (pathExists_iff.mp hex)
      obtain ⟨k', rfl⟩ : ∃ k', k = k' + 1 := ⟨k - 1, by omega⟩
      have hrec := ih (i + 1) ⟨k', by omega, by
        have : i + 1 + k' = i + (k' + 1) := by omega
        rwa [this]⟩
      rw [firstFreeAux, if_pos hex]
      refine ⟨hrec.1, by omega, ?_⟩
      intro j hij hjlt
      rcases Nat.eq_or_lt_of_le hij with rfl | hlt
      · exact pathExists_iff.mp hex
      · exact hrec.2.2 j hlt hjlt
    · rw [firstFreeAux, if_neg hex]
      refine ⟨fun hmem => hex (pathExists_iff.mpr hmem), le_rfl, ?_⟩
      intro j hij hjlt
      omega

/-- The least free index: `firstFreeIndex` is at least 1, its candidate does
not exist, and every smaller index from 1 up is taken. -/
theorem firstFreeIndex_spec (fs : List Str) (name ext : Str) :
    1 ≤ firstFreeIndex fs name ext ∧
    candidate name ext (firstFreeIndex fs name ext) ∉ fs ∧
    ∀ j, 1 ≤ j → j < firstFreeIndex fs name ext → candidate name ext j ∈ fs := by
  obtain ⟨k, hk, hfree⟩ := exists_free_candidate fs name ext
  have h := firstFreeAux_spec fs name ext (fs.length + 1) 1
    ⟨k, hk, by rwa [Nat.add_comm 1 k]⟩
  exact ⟨h.2.1, h.1, h.2.2⟩

/-- The index `firstFreeIndex` never exceeds `|fs| + 1`: the loop terminates within the
provided fuel. -/
theorem firstFreeIndex_le (fs : List Str) (name ext : Str) :
    firstFreeIndex fs name ext ≤ fs.length + 1 := by
  obtain ⟨k, hk, hfree⟩ := exists_free_candidate fs name ext
  by_contra hgt
  push_neg at hgt
  have h := firstFreeIndex_spec fs name ext
  exact hfree (h.2.2 (k + 1) (by omega) (by omega))

theorem splitext_append (p r e : Str) (h : splitext p = (r, e)) : r ++ e = p := by
  unfold splitext at h
  rcases hdot : lastIdxOf p '.' with _ | d <;> rw [hdot] at h
  · simp at h
    rw [h.1, h.2]
    simp
  · simp only at h
    split at h
    · have hr : r = p.take d := (Prod.mk.injEq _ _ _ _ ▸ h.symm).1
      have he : e = p.drop d := (Prod.mk.injEq _ _ _ _ ▸ h.symm).2
      rw [hr, he, List.take_append_drop]
    · simp at h
      rw [h.1, h.2]
      simp

/-! ## Claims C1 and C10: the output namer -/

/-- C1: `get_unique_output_path` returns a path that does not exist at call
time; when the desired path itself does not exist it is returned unchanged;
and when exactly `name.ext`, `name_1.ext`, …, `name_(N-1).ext` exist
(`N ≥ 1`), the result is `name_N.ext`, the smallest free suffix index. -/
theorem get_unique_output_path_spec (fs : List Str) (output_file name ext : Str)
    (N : Nat) (hsplit : splitext output_file = (name, ext)) (hN : 1 ≤ N) :
    get_unique_output_path fs output_file ∉ fs ∧
    (output_file ∉ fs → get_unique_output_path fs output_file = output_file) ∧
    (fs = output_file ::
        (List.range (N - 1)).map (fun k => candidate name ext (k + 1)) →
      get_unique_output_path fs output_file = candidate name ext N) := by
  refine ⟨?_, ?_, ?_⟩
  · by_cases hex : pathExists fs output_file = true
    · simp only [get_unique_output_path, hsplit, if_pos hex]
      exact (firstFreeIndex_spec fs name ext).2.1
    · simp only [get_unique_output_path, hsplit, if_neg hex]
      exact fun hmem => hex (pathExists_iff.mpr hmem)
  · intro hnotin
    have hex : ¬pathExists fs output_file = true := fun h => hnotin (pathExists_iff.mp h)
    simp only [get_unique_output_path, hsplit, if_neg hex]
  · intro hfs
    have hmem : output_file ∈ fs := by
      rw [hfs]
      exact List.mem_cons_self _ _
    have hex : pathExists fs output_file = true := pathExists_iff.mpr hmem
    have hbase : output_file = name ++ ext := (splitext_append _ _ _ hsplit).symm
    have hin : ∀ j, 1 ≤ j → j ≤ N - 1 → candidate name ext j ∈ fs := by
      intro j h1 h2
      rw [hfs]
      refine List.mem_cons_of_mem _ (List.mem_map.mpr ⟨j - 1, ?_, by congr 1; omega⟩)
      exact List.mem_range.mpr (by omega)
    have hout : candidate name ext N ∉ fs := by
      rw [hfs]
      intro hmem'
      rcases List.mem_cons.mp hmem' with h | h
      · rw [hbase] at h
        exact candidate_ne_base name ext N h
      · obtain ⟨k, hk, heq⟩ := List.mem_map.mp h
        have hNk := candidate_inj (Nat.succ_pos k) (by omega) heq
        have hkr := List.mem_range.mp hk
        omega
    obtain ⟨h1, h2, h3⟩ := firstFreeIndex_spec fs name ext
    have hff : firstFreeIndex fs name ext = N := by
      rcases lt_trichotomy (firstFreeIndex fs name ext) N with hlt | heq | hgt
      · exact absurd (hin _ h1 (by omega)) h2
      · exact heq
      · exact absurd (h3 N hN hgt) hout
    simp only [get_unique_output_path, hsplit, if_pos hex]
    rw [hff]

theorem get_unique_output_path_spec_witness :
    get_unique_output_path ["song.mp3".toList, "song_1.mp3".toList] "song.mp3".toList
      = candidate "song".toList ".mp3".toList 2 :=
  (get_unique_output_path_spec ["song.mp3".toList, "song_1.mp3".toList]
    "song.mp3".toList "song".toList ".mp3".toList 2 (by decide) (by decide)).2.2
    (by decide)

/-- C10: the index-probing loop terminates on every finite filesystem: the
first free index is well defined, at least 1, at most `|fs| + 1`, and its
candidate path does not exist, so `get_unique_output_path` is a total
function of the desired path and the finite set of existing paths. -/
theorem get_unique_output_path_terminates (fs : List Str) (name ext : Str) :
    1 ≤ firstFreeIndex fs name ext ∧
    firstFreeIndex fs name ext ≤ fs.length + 1 ∧
    candidate name ext (firstFreeIndex fs name ext) ∉ fs := by
  obtain ⟨h1, h2, -⟩ := firstFreeIndex_spec fs name ext
  exact ⟨h1, firstFreeIndex_le fs name ext, h2⟩

/-! ## Lemmas about discovery -/

theorem discovery_cons (f : FSFile) (rest : List FSFile) (min_size_kb : Nat)
    (delete_small : Bool) :
    discovery (f :: rest) min_size_kb delete_small =
      (let r := discovery rest min_size_kb delete_small
       let file_lower := lowerStr f.name
       if endswith file_lower flacExt || endswith file_lower mp3Ext then
         if is_file_too_small f.size min_size_kb then
           ⟨r.audio_files, r.small_files_count + 1,
             (if delete_small then [fullPath f] else []) ++ r.deletions⟩
         else
           ⟨(fullPath f, if endswith file_lower flacExt then flacTag else mp3Tag)
               :: r.audio_files,
             r.small_files_count, r.deletions⟩
       else r) := by
  rw [discovery]

theorem not_endswith_flac_and_mp3 (s : Str) :
    ¬(endswith s flacExt = true ∧ endswith s mp3Ext = true) := by
  rintro ⟨hf, hm⟩
  rw [endswith, List.isSuffixOf_iff_suffix] at hf hm
  rcases List.suffix_or_suffix_of_suffix hf hm with h | h
  · rw [flacExt, mp3Ext] at h
    revert h
    decide
  · rw [flacExt, mp3Ext] at h
    revert h
    decide

/-! ## Claim C2: exhaustive, exclusive classification during discovery -/

/-- C2: every walked file falls in exactly one of four categories: FLAC task
(lowercased name ends in `.flac`, not too small, prepended to the result list
with tag `flac`), MP3 task (likewise for `.mp3`), skipped as too small (audio
extension but size below threshold, excluded from the result), or ignored as
non-audio (neither extension, excluded); the four defining conditions are
pairwise incompatible. -/
theorem find_audio_files_classification (f : FSFile) (rest : List FSFile)
    (min_size_kb : Nat) (delete_small : Bool) :
    ((endswith (lowerStr f.name) flacExt = true
        ∧ is_file_too_small f.size min_size_kb = false
        ∧ find_audio_files (f :: rest) min_size_kb delete_small
            = (fullPath f, flacTag) :: find_audio_files rest min_size_kb delete_small)
      ∨ (endswith (lowerStr f.name) mp3Ext = true
        ∧ is_file_too_small f.size min_size_kb = false
        ∧ find_audio_files (f :: rest) min_size_kb delete_small
            = (fullPath f, mp3Tag) :: find_audio_files rest min_size_kb delete_small)
      ∨ ((endswith (lowerStr f.name) flacExt = true
          ∨ endswith (lowerStr f.name) mp3Ext = true)
        ∧ is_file_too_small f.size min_size_kb = true
        ∧ find_audio_files (f :: rest) min_size_kb delete_small
            = find_audio_files rest min_size_kb delete_small)
      ∨ (endswith (lowerStr f.name) flacExt = false
        ∧ endswith (lowerStr f.name) mp3Ext = false
        ∧ find_audio_files (f :: rest) min_size_kb delete_small
            = find_audio_files rest min_size_kb delete_small)) ∧
    ¬((endswith (lowerStr f.name) flacExt = true
        ∧ is_file_too_small f.size min_size_kb = false)
      ∧ (endswith (lowerStr f.name) mp3Ext = true
        ∧ is_file_too_small f.size min_size_kb = false)) ∧
    ¬((endswith (lowerStr f.name) flacExt = true
        ∧ is_file_too_small f.size min_size_kb = false)
      ∧ ((endswith (lowerStr f.name) flacExt = true
          ∨ endswith (lowerStr f.name) mp3Ext = true)
        ∧ is_file_too_small f.size min_size_kb = true)) ∧
    ¬((endswith (lowerStr f.name) flacExt = true
        ∧ is_file_too_small f.size min_size_kb = false)
      ∧ (endswith (lowerStr f.name) flacExt = false
        ∧ endswith (lowerStr f.name) mp3Ext = false)) ∧
    ¬((endswith (lowerStr f.name) mp3Ext = true
        ∧ is_file_too_small f.size min_size_kb = false)
      ∧ ((endswith (lowerStr f.name) flacExt = true
          ∨ endswith (lowerStr f.name) mp3Ext = true)
        ∧ is_file_too_small f.size min_size_kb = true)) ∧
    ¬((endswith (lowerStr f.name) mp3Ext = true
        ∧ is_file_too_small f.size min_size_kb = false)
      ∧ (endswith (lowerStr f.name) flacExt = false
        ∧ endswith (lowerStr f.name) mp3Ext = false)) ∧
    ¬(((endswith (lowerStr f.name) flacExt = true
          ∨ endswith (lowerStr f.name) mp3Ext = true)
        ∧ is_file_too_small f.size min_size_kb = true)
      ∧ (endswith (lowerStr f.name) flacExt = false
        ∧ endswith (lowerStr f.name) mp3Ext = false)) := by
  have hexc := not_endswith_flac_and_mp3 (lowerStr f.name)
  refine ⟨?_, ?_, ?_, ?_, ?_, ?_, ?_⟩
  · cases hs : is_file_too_small f.size min_size_kb with
    | true =>
      cases hf : endswith (lowerStr f.name) flacExt with
      | true =>
        exact Or.inr (Or.inr (Or.inl ⟨Or.inl rfl, rfl,
          by simp [find_audio_files, discovery, hf, hs]⟩))
      | false =>
        cases hm : endswith (lowerStr f.name) mp3Ext with
        | true =>
          exact Or.inr (Or.inr (Or.inl ⟨Or.inr rfl, rfl,
            by simp [find_audio_files, discovery, hf, hm, hs]⟩))
        | false =>
          exact Or.inr (Or.inr (Or.inr ⟨rfl, rfl,
            by simp [find_audio_files, discovery, hf, hm]⟩))
    | false =>
      cases hf : endswith (lowerStr f.name) flacExt with
      | true =>
        exact Or.inl ⟨rfl, rfl, by simp [find_audio_files, discovery, hf, hs]⟩
      | false =>
        cases hm : endswith (lowerStr f.name) mp3Ext with
        | true =>
          exact Or.inr (Or.inl ⟨rfl, rfl,
            by simp [find_audio_files, discovery, hf, hm, hs]⟩)
        | false =>
          exact Or.inr (Or.inr (Or.inr ⟨rfl, rfl,
            by simp [find_audio_files, discovery, hf, hm]⟩))
  · rintro ⟨⟨h1, -⟩, h2, -⟩
    exact hexc ⟨h1, h2⟩
  · rintro ⟨⟨-, h1⟩, -, h2⟩
    simp [h1] at h2
  · rintro ⟨⟨h1, -⟩, h2, -⟩
    simp [h1] at h2
  · rintro ⟨⟨-, h1⟩, -, h2⟩
    simp [h1] at h2
  · rintro ⟨⟨h1, -⟩, -, h2⟩
    simp [h1] at h2
  · rintro ⟨⟨h1, -⟩, h2, h3⟩
    rcases h1 with h1 | h1
    · simp [h1] at h2
    · simp [h1] at h3

/-! ## Claim C5: unreadable sizes are "not too small" and never abort the walk -/

/-- C5: when the size check raises (`size = none`), the file is reported as
not too small, so an audio-extension candidate proceeds to conversion (it is
included in the result list) and the rest of the walk is still processed. -/
theorem unreadable_size_proceeds (f : FSFile) (rest : List FSFile)
    (min_size_kb : Nat) (delete_small : Bool) (hsize : f.size = none)
    (haudio : endswith (lowerStr f.name) flacExt = true
      ∨ endswith (lowerStr f.name) mp3Ext = true) :
    is_file_too_small f.size min_size_kb = false ∧
    find_audio_files (f :: rest) min_size_kb delete_small
      = (fullPath f,
          if endswith (lowerStr f.name) flacExt then flacTag else mp3Tag)
        :: find_audio_files rest min_size_kb delete_small := by
  have hsmall : is_file_too_small f.size min_size_kb = false := by
    rw [hsize]
    rfl
  refine ⟨hsmall, ?_⟩
  rcases haudio with h | h <;>
    simp [find_audio_files, discovery, h, hsmall]

theorem unreadable_size_proceeds_witness :
    is_file_too_small (FSFile.mk "r".toList "a.flac".toList none).size 200 = false ∧
    find_audio_files [FSFile.mk "r".toList "a.flac".toList none] 200 false
      = (fullPath (FSFile.mk "r".toList "a.flac".toList none),
          if endswith (lowerStr (FSFile.mk "r".toList "a.flac".toList none).name) flacExt
          then flacTag else mp3Tag)
        :: find_audio_files [] 200 false :=
  unreadable_size_proceeds (FSFile.mk "r".toList "a.flac".toList none) [] 200 false
    rfl (Or.inl (by decide))

/-! ## Claim C6: the delete-small frame property -/

/-- C6: with the flag off, discovery attempts no deletion at all; a too-small
audio file is excluded from the result list whatever the flag; with the flag
on, its deletion is attempted; and every attempted deletion during discovery
is of a too-small audio-extension file with the flag on — no other path
touches input files. -/
theorem delete_small_frame (f : FSFile) (rest : List FSFile) (min_size_kb : Nat)
    (hsmall : is_file_too_small f.size min_size_kb = true)
    (haudio : endswith (lowerStr f.name) flacExt = true
      ∨ endswith (lowerStr f.name) mp3Ext = true) :
    (∀ files : List FSFile, (discovery files min_size_kb false).deletions = []) ∧
    (∀ delete_small : Bool,
      find_audio_files (f :: rest) min_size_kb delete_small
        = find_audio_files rest min_size_kb delete_small) ∧
    (discovery (f :: rest) min_size_kb true).deletions
      = fullPath f :: (discovery rest min_size_kb true).deletions ∧
    (∀ (files : List FSFile) (delete_small : Bool) (p : Str),
      p ∈ (discovery files min_size_kb delete_small).deletions →
        delete_small = true ∧ ∃ g ∈ files, p = fullPath g
          ∧ (endswith (lowerStr g.name) flacExt = true
            ∨ endswith (lowerStr g.name) mp3Ext = true)
          ∧ is_file_too_small g.size min_size_kb = true) := by
  refine ⟨?_, ?_, ?_, ?_⟩
  · intro files
    induction files with
    | nil => rfl
    | cons g gs ih =>
      by_cases h1 : (endswith (lowerStr g.name) flacExt
          || endswith (lowerStr g.name) mp3Ext) = true
      · by_cases h2 : is_file_too_small g.size min_size_kb = true
        · simp [discovery, h1, h2, ih]
        · simp [discovery, h1, h2, ih]
      · simp [discovery, h1, ih]
  · intro delete_small
    rcases haudio with h | h <;>
      simp [find_audio_files, discovery, h, hsmall]
  · rcases haudio with h | h <;>
      simp [discovery, h, hsmall]
  · intro files delete_small p
    induction files with
    | nil =>
      intro hmem
      simp [discovery] at hmem
    | cons g gs ih =>
      intro hmem
      by_cases h1 : (endswith (lowerStr g.name) flacExt
          || endswith (lowerStr g.name) mp3Ext) = true
      · by_cases h2 : is_file_too_small g.size min_size_kb = true
        · rw [discovery] at hmem
          simp only [h1, h2, if_pos, if_true] at hmem
          rcases List.mem_append.mp hmem with hdel | htail
          · have hds : delete_small = true := by
              by_contra hneg
              simp [Bool.not_eq_true] at hneg
              simp [hneg] at hdel
            rw [hds] at hdel
            simp at hdel
            refine ⟨hds, g, List.mem_cons_self _ _, hdel, ?_, h2⟩
            rcases Bool.or_eq_true_iff.mp h1 with h | h
            · exact Or.inl h
            · exact Or.inr h
          · obtain ⟨hds, g', hg', hrest⟩ := ih htail
            exact ⟨hds, g', List.mem_cons_of_mem _ hg', hrest⟩
        · rw [discovery] at hmem
          simp only [h1, h2, if_pos, if_false] at hmem
          obtain ⟨hds, g', hg', hrest⟩ := ih (by simpa using hmem)
          exact ⟨hds, g', List.mem_cons_of_mem _ hg', hrest⟩
      · rw [discovery] at hmem
        simp only [h1, if_false] at hmem
        obtain ⟨hds, g', hg', hrest⟩ := ih (by simpa using hmem)
        exact ⟨hds, g', List.mem_cons_of_mem _ hg', hrest⟩

theorem delete_small_frame_witness :
    (discovery [FSFile.mk "r".toList "b.mp3".toList (some 10)] 200 true).deletions
      = fullPath (FSFile.mk "r".toList "b.mp3".toList (some 10))
        :: (discovery [] 200 true).deletions :=
  (delete_small_frame (FSFile.mk "r".toList "b.mp3".toList (some 10)) [] 200
    (by decide) (Or.inr (by decide))).2.2.1

/-! ## Claim C3: counter invariants of the dispatch loop -/

theorem foldl_countStep_sum : ∀ (l : List Bool) (a : Nat × Nat),
    (l.foldl countStep a).1 + (l.foldl countStep a).2 = a.1 + a.2 + l.length := by
  intro l
  induction l with
  | nil => simp
  | cons r rs ih =>
    intro a
    rw [List.foldl_cons, ih]
    cases r <;> simp [countStep] <;> omega

/-- C3: `completed + failed` after `k` completions is monotone in `k`, never
exceeds the number of discovered files, each task's boolean result increments
exactly one of the two counters by one, and at the end of the run
`completed + failed` equals the total for every non-empty discovered list. -/
theorem counters_invariant (files : List FSFile) (min_size_kb : Nat)
    (delete_small : Bool) (results : List Bool)
    (hlen : results.length = (find_audio_files files min_size_kb delete_small).length)
    (hne : find_audio_files files min_size_kb delete_small ≠ []) :
    (∀ k k', k ≤ k' →
      (counters_after results k).1 + (counters_after results k).2
        ≤ (counters_after results k').1 + (counters_after results k').2) ∧
    (∀ k, (counters_after results k).1 + (counters_after results k).2
        ≤ (find_audio_files files min_size_kb delete_small).length) ∧
    (∀ (p : Nat × Nat) (r : Bool),
      countStep p r = (p.1 + 1, p.2) ∨ countStep p r = (p.1, p.2 + 1)) ∧
    (run_counters results).1 + (run_counters results).2
      = (find_audio_files files min_size_kb delete_small).length := by
  have hsum : ∀ k, (counters_after results k).1 + (counters_after results k).2
      = min k results.length := by
    intro k
    unfold counters_after run_counters
    rw [foldl_countStep_sum]
    simp [List.length_take]
  refine ⟨?_, ?_, ?_, ?_⟩
  · intro k k' hk
    rw [hsum, hsum]
    omega
  · intro k
    rw [hsum, ← hlen]
    omega
  · intro p r
    cases r
    · exact Or.inr (by simp [countStep])
    · exact Or.inl (by simp [countStep])
  · unfold run_counters
    rw [foldl_countStep_sum, ← hlen]
    omega

theorem counters_invariant_witness :
    (run_counters [true]).1 + (run_counters [true]).2
      = (find_audio_files [FSFile.mk "r".toList "a.flac".toList (some 300000)]
          200 false).length :=
  (counters_invariant [FSFile.mk "r".toList "a.flac".toList (some 300000)] 200 false
    [true] (by decide) (by decide)).2.2.2

/-! ## Claim C4: converters contain all failures -/

/-- C4: `transcode_file` returns `True` exactly when the encoder exits with
code 0; a nonzero exit returns `False` with the captured stderr logged; any
exception returns `False` with the exception text logged; `copy_file` returns
`False` with the exception text logged on any exception. Neither converter
propagates an exception: every outcome maps to a boolean result. -/
theorem converters_contain_failures :
    (∀ stderr : Str, transcode_file (.completedProc 0 stderr) = ⟨true, none⟩) ∧
    (∀ (returncode : Int) (stderr : Str), returncode ≠ 0 →
      transcode_file (.completedProc returncode stderr) = ⟨false, some stderr⟩) ∧
    (∀ outcome, (transcode_file outcome).ok = true ↔
      ∃ stderr, outcome = .completedProc 0 stderr) ∧
    (∀ msg : Str, transcode_file (.raised msg) = ⟨false, some msg⟩) ∧
    (∀ msg : Str, copy_file (.raised msg) = ⟨false, some msg⟩) ∧
    (copy_file .ok = ⟨true, none⟩) := by
  refine ⟨?_, ?_, ?_, ?_, ?_, rfl⟩
  · intro stderr
    simp [transcode_file]
  · intro returncode stderr h
    simp [transcode_file, h]
  · intro outcome
    rcases outcome with ⟨returncode, stderr⟩ | msg
    · by_cases h : returncode = 0
      · subst h
        simp [transcode_file]
      · simp [transcode_file, h]
    · simp [transcode_file]
  · intro msg
    rfl
  · intro msg
    rfl

theorem converters_contain_failures_witness :
    transcode_file (.completedProc 1 "boom".toList)
      = ⟨false, some "boom".toList⟩ :=
  converters_contain_failures.2.1 1 "boom".toList (by decide)

/-! ## Claims C7 and C9: the progress bar -/

theorem ratFloor_eq_intFloor (q : ℚ) : q.floor = ⌊q⌋ := by
  rw [Rat.floor_def', Rat.floor_def]

theorem log2fuel_spec : ∀ fuel n, 0 < n → n ≤ fuel →
    2 ^ log2fuel fuel n ≤ n ∧ n < 2 ^ (log2fuel fuel n + 1) := by
  intro fuel
  induction fuel with
  | zero =>
    intro n h1 h2
    exfalso
    omega
  | succ fuel ih =>
    intro n h1 h2
    by_cases h : n ≥ 2
    · have hrec := ih (n / 2) (by omega) (by omega)
      rw [log2fuel, if_pos h]
      constructor
      · rw [pow_succ]
        omega
      · rw [pow_succ]
        omega
    · rw [log2fuel, if_neg h]
      simp only [pow_zero, zero_add, pow_one]
      omega

theorem nlog2_spec (n : Nat) (h : 0 < n) :
    2 ^ nlog2 n ≤ n ∧ n < 2 ^ (nlog2 n + 1) :=
  log2fuel_spec n n h le_rfl

/-- The rounded significand overshoots the exact ratio by at most one half. -/
theorem roundRatHalfEven_le (u v : Nat) (hv : 0 < v) :
    (roundRatHalfEven u v : ℚ) ≤ (u : ℚ) / v + 1 / 2 := by
  have hvQ : (0 : ℚ) < v := by exact_mod_cast hv
  have hA : (v : ℚ) * ((u / v : ℕ) : ℚ) + ((u % v : ℕ) : ℚ) = u := by
    exact_mod_cast Nat.div_add_mod u v
  have hr0 : (0 : ℚ) ≤ ((u % v : ℕ) : ℚ) := by positivity
  have hgoal : ∀ m : ℕ, (m : ℚ) * (2 * v) ≤ 2 * u + v →
      (m : ℚ) ≤ (u : ℚ) / v + 1 / 2 := by
    intro m hm
    rw [div_add_div _ _ (ne_of_gt hvQ) two_ne_zero, le_div_iff₀ (by positivity)]
    ring_nf
    ring_nf at hm
    linarith
  simp only [roundRatHalfEven]
  split_ifs with h1 h2 h3
  · apply hgoal
    have h1Q : 2 * ((u % v : ℕ) : ℚ) < v := by exact_mod_cast h1
    nlinarith [hA]
  · apply hgoal
    have h2Q : (v : ℚ) < 2 * ((u % v : ℕ) : ℚ) := by exact_mod_cast h2
    push_cast
    nlinarith [hA]
  · apply hgoal
    have h3Q : 2 * ((u % v : ℕ) : ℚ) = v := by
      have h4 : 2 * (u % v) = v := by omega
      exact_mod_cast h4
    nlinarith [hA]
  · apply hgoal
    have h3Q : 2 * ((u % v : ℕ) : ℚ) = v := by
      have h4 : 2 * (u % v) = v := by omega
      exact_mod_cast h4
    push_cast
    nlinarith [hA]

/-- The exponent estimate never overshoots: `2 ^ flog2 a b ≤ a / b`. -/
theorem flog2_le (a b : Nat) (ha : 0 < a) (hb : 0 < b) :
    (2 : ℚ) ^ flog2 a b ≤ (a : ℚ) / b := by
  have hla : (2 : ℚ) ^ nlog2 a ≤ (a : ℚ) := by exact_mod_cast (nlog2_spec a ha).1
  have hlb : (b : ℚ) < 2 ^ (nlog2 b + 1) := by exact_mod_cast (nlog2_spec b hb).2
  have haQ : (0 : ℚ) < a := by exact_mod_cast ha
  have hbQ : (0 : ℚ) < b := by exact_mod_cast hb
  simp only [flog2]
  split_ifs with htest
  · have h' : ((b * 2 ^ nlog2 a : ℕ) : ℚ) ≤ ((a * 2 ^ nlog2 b : ℕ) : ℚ) := by
      exact_mod_cast htest
    push_cast at h'
    rw [zpow_sub₀ two_ne_zero, zpow_natCast, zpow_natCast,
      div_le_div_iff₀ (by positivity) hbQ]
    nlinarith [h']
  · push_neg at htest
    have hcast : (nlog2 a : ℤ) - nlog2 b - 1
        = (nlog2 a : ℤ) - ((nlog2 b + 1 : ℕ) : ℤ) := by
      push_cast
      ring
    rw [hcast, zpow_sub₀ two_ne_zero, zpow_natCast, zpow_natCast,
      div_le_div_iff₀ (by positivity) hbQ]
    calc (2 : ℚ) ^ nlog2 a * b ≤ (a : ℚ) * b :=
        mul_le_mul_of_nonneg_right hla (le_of_lt hbQ)
      _ ≤ (a : ℚ) * 2 ^ (nlog2 b + 1) :=
        mul_le_mul_of_nonneg_left (le_of_lt hlb) (le_of_lt haQ)

theorem doubleOfRat_nonneg (a b : Nat) : 0 ≤ doubleOfRat a b := by
  simp only [doubleOfRat]
  split_ifs with h1 h2
  · exact le_refl 0
  · rw [Rat.mkRat_eq_divInt, Rat.divInt_eq_div]
    positivity
  · rw [Rat.mkRat_eq_divInt, Rat.divInt_eq_div]
    positivity

/-- Correct rounding never lifts `a / b` past an exactly representable
integer bound `c ≤ 2 ^ 52`: if `a / b ≤ c` then its double is `≤ c`. -/
theorem doubleOfRat_le_nat (a b c : Nat) (hb : 0 < b) (hc : 0 < c)
    (hc52 : c ≤ 2 ^ 52) (h : a ≤ c * b) : doubleOfRat a b ≤ (c : ℚ) := by
  rcases Nat.eq_zero_or_pos a with rfl | ha
  · have h0 : doubleOfRat 0 b = 0 := by simp [doubleOfRat]
    rw [h0]
    positivity
  · have hbQ : (0 : ℚ) < b := by exact_mod_cast hb
    have hval : (a : ℚ) / b ≤ c := by
      rw [div_le_iff₀ hbQ]
      exact_mod_cast h
    have hE := flog2_le a b ha hb
    have hE52 : flog2 a b ≤ 52 := by
      by_contra hgt
      push_neg at hgt
      have h53 : (2 : ℚ) ^ (53 : ℤ) ≤ (2 : ℚ) ^ flog2 a b :=
        zpow_le_zpow_right₀ (by norm_num) (by omega)
      have hc2 : (c : ℚ) ≤ ((2 ^ 52 : ℕ) : ℚ) := by exact_mod_cast hc52
      have hfin : (2 : ℚ) ^ (53 : ℤ) ≤ ((2 ^ 52 : ℕ) : ℚ) :=
        le_trans h53 (le_trans hE (le_trans hval hc2))
      rw [show (53 : ℤ) = ((53 : ℕ) : ℤ) from rfl, zpow_natCast] at hfin
      push_cast at hfin
      norm_num at hfin
    have hcond : ¬(a = 0 ∨ b = 0) := by
      push_neg
      omega
    have ht0 : (0 : Int) ≤ 52 - flog2 a b := by omega
    simp only [doubleOfRat, if_neg hcond, if_pos ht0]
    rw [Rat.mkRat_eq_divInt, Rat.divInt_eq_div]
    push_cast
    set k := (52 - flog2 a b).toNat with hk
    have h2k : (0 : ℚ) < 2 ^ k := by positivity
    rw [div_le_iff₀ h2k]
    have hm := roundRatHalfEven_le (a * 2 ^ k) b hb
    have hx : ((a * 2 ^ k : ℕ) : ℚ) / b = (a : ℚ) / b * 2 ^ k := by
      push_cast
      ring
    rw [hx] at hm
    have hmul : (a : ℚ) / b * 2 ^ k ≤ (c : ℚ) * 2 ^ k :=
      mul_le_mul_of_nonneg_right hval (le_of_lt h2k)
    have hlt : ((roundRatHalfEven (a * 2 ^ k) b : ℕ) : ℚ)
        < ((c * 2 ^ k : ℕ) : ℚ) + 1 := by
      push_cast
      linarith
    have hle' : roundRatHalfEven (a * 2 ^ k) b ≤ c * 2 ^ k := by
      have hlt' : roundRatHalfEven (a * 2 ^ k) b < c * 2 ^ k + 1 := by
        exact_mod_cast hlt
      omega
    calc ((roundRatHalfEven (a * 2 ^ k) b : ℕ) : ℚ)
        ≤ ((c * 2 ^ k : ℕ) : ℚ) := by exact_mod_cast hle'
      _ = (c : ℚ) * 2 ^ k := by push_cast; ring

/-- The filled-cell count of the float computation never exceeds the bar
width: `int(50.0 * ((s / t) as binary64)) ≤ 50` whenever `s ≤ t`. -/
theorem filled_width_le (s t : Nat) (hst : s ≤ t) (ht : 0 < t) :
    (doubleMulNat 50 (doubleOfRat s t)).floor.toNat ≤ 50 := by
  have hp1 : doubleOfRat s t ≤ 1 := by
    have h1 := doubleOfRat_le_nat s t 1 ht (by norm_num) (by norm_num) (by omega)
    simpa using h1
  set p := doubleOfRat s t with hpdef
  have hden : 0 < p.den := p.pos
  have hnum_le : p.num.toNat ≤ p.den := by
    have hdQ : (0 : ℚ) < (p.den : ℚ) := by exact_mod_cast hden
    have h1 : (p.num : ℚ) ≤ (p.den : ℚ) := by
      rw [← Rat.num_div_den p, div_le_one hdQ] at hp1
      exact hp1
    have h2 : p.num ≤ (p.den : ℤ) := by exact_mod_cast h1
    omega
  have hr : doubleOfRat (50 * p.num.toNat) p.den ≤ ((50 : ℕ) : ℚ) :=
    doubleOfRat_le_nat (50 * p.num.toNat) p.den 50 hden (by norm_num)
      (by norm_num) (Nat.mul_le_mul_left 50 hnum_le)
  have hfl : (doubleOfRat (50 * p.num.toNat) p.den).floor ≤ 50 := by
    rw [ratFloor_eq_intFloor]
    calc ⌊doubleOfRat (50 * p.num.toNat) p.den⌋ ≤ ⌊((50 : ℕ) : ℚ)⌋ :=
        Int.floor_le_floor hr
      _ = 50 := by simp
  unfold doubleMulNat
  omega

/-- C7 (corrected): for every call with `total > 0` and
`completed + failed ≤ total` (as at every call site), the bar has fixed
width 50 and its number of filled cells is the truncated binary64 product
`int(50.0 * ((completed + failed) / total))` — which can be one below the
exact `⌊50 * (completed + failed) / total⌋`, e.g. 28 instead of 29 at 29
completions of 50 — followed by the percentage (the binary64 quotient) and
the raw counts `completed + failed`, `total`, `completed`, `failed`. -/
theorem display_progress_float_spec (completed failed total : Nat)
    (hpos : 0 < total) (hle : completed + failed ≤ total) :
    (display_progress completed failed total).bar
      = List.replicate
          ((doubleMulNat 50 (doubleOfRat (completed + failed) total)).floor.toNat)
          '█'
        ++ List.replicate
          (50 - (doubleMulNat 50 (doubleOfRat (completed + failed) total)).floor.toNat)
          '-' ∧
    (display_progress completed failed total).bar.length = 50 ∧
    (display_progress completed failed total).bar.count '█'
      = (doubleMulNat 50 (doubleOfRat (completed + failed) total)).floor.toNat ∧
    (display_progress completed failed total).percentage
      = doubleOfRat (completed + failed) total ∧
    (display_progress completed failed total).done = completed + failed ∧
    (display_progress completed failed total).total = total ∧
    (display_progress completed failed total).completed = completed ∧
    (display_progress completed failed total).failed = failed := by
  have hfle := filled_width_le (completed + failed) total hle hpos
  have hbar : (display_progress completed failed total).bar
      = List.replicate
          ((doubleMulNat 50 (doubleOfRat (completed + failed) total)).floor.toNat)
          '█'
        ++ List.replicate
          (50 - (doubleMulNat 50 (doubleOfRat (completed + failed) total)).floor.toNat)
          '-' := by
    simp only [display_progress, if_pos hpos]
  refine ⟨hbar, ?_, ?_, ?_, rfl, rfl, rfl, rfl⟩
  · rw [hbar]
    simp
    omega
  · rw [hbar, List.count_append, List.count_replicate_self, List.count_replicate]
    simp
  · simp only [display_progress, if_pos hpos]

theorem display_progress_float_spec_witness :
    (display_progress 1 2 7).bar.length = 50 :=
  (display_progress_float_spec 1 2 7 (by decide) (by decide)).2.1

/-- C7 counterexample: at 29 completions of 50, the program's binary64
arithmetic renders `int(50 * (29 / 50)) = 28` filled cells — not
`⌊50 * (29 + 0) / 50⌋ = 29` as the original claim asserts. -/
theorem display_progress_spec_counterexample :
    (display_progress 29 0 50).bar.count '█' = 28 ∧
    50 * (29 + 0) / 50 = 29 ∧
    (display_progress 29 0 50).bar.count '█' ≠ 50 * (29 + 0) / 50 := by
  refine ⟨by decide, by decide, by decide⟩

/-- C9: `display_progress` is total and never divides by zero: with
`total = 0` the percentage is defined to be 0, the bar is all-empty, and the
function returns normally on all non-negative inputs. -/
theorem display_progress_total_zero (completed failed : Nat) :
    display_progress completed failed 0 =
      { bar := List.replicate 50 '-', percentage := 0, done := completed + failed,
        total := 0, completed := completed, failed := failed } := by
  have h0 : ¬(0 : Nat) > 0 := by omega
  have hfw : (doubleMulNat 50 (0 : ℚ)).floor.toNat = 0 := by decide
  simp only [display_progress, if_neg h0, hfw]
  norm_num

/-! ## Claim C8: exit codes -/

/-- C8: `main` exits with code 0 on every normal completion: when discovery
returns no audio files it prints the informational message and exits 0, and
per-file conversion failures (any `exec` results) never change the exit
code. -/
theorem main_exit_code_zero (files : List FSFile) (min_size_kb : Nat)
    (delete_small : Bool) (exec : Str × Str → Bool) :
    (main_model files min_size_kb delete_small exec).exit_code = 0 ∧
    ((main_model files min_size_kb delete_small exec).no_files_message = true ↔
      find_audio_files files min_size_kb delete_small = []) := by
  unfold main_model
  by_cases h : (find_audio_files files min_size_kb delete_small).length = 0
  · simp [h, List.length_eq_zero.mp h]
  · simp only [h, if_neg h]
    simp [List.length_eq_zero] at h
    simp [h]

end AutoTranscode
